import Mathlib

/-!
Verification development for the bit-field analyser (`src/analyser.py`).

The Python source is shallowly embedded: strings are `String`/`List Char`,
the `bitarray` bit buffers are `List Bool`, Python integers are `Int`
(offsets and digit values that are provably non-negative are `Nat`), and
every fallible operation (Python exceptions: `ValueError` from `int`,
`IndexError` from out-of-range indexing) returns an `Option`.
-/

/-! ### Digit characters and Python numeral parsing

`int(s, base)` accepts an optional single sign, an optional base prefix
(`0x`/`0X` for 16, `0o`/`0O` for 8) and then a non-empty run of digits that
are valid for the base (`0-9`, `a-z`, `A-Z` with values `0..35`).
Underscore separators and surrounding whitespace are not modelled; no call
site can produce them (`ParseConfigValue` strips all whitespace first).
-/

/-- Value of a character as a digit, as Python `int(_, base)` sees it:
`0-9` < `a-z` (10..35) < `A-Z` (10..35); `none` for anything else. -/
def digChar? (c : Char) : Option Nat :=
  if '0' ≤ c ∧ c ≤ '9' then some (c.toNat - 48)
  else if 'a' ≤ c ∧ c ≤ 'z' then some (c.toNat - 87)
  else if 'A' ≤ c ∧ c ≤ 'Z' then some (c.toNat - 55)
  else none

/-- The digit value of a character (junk value 0 off the digit ranges). -/
def digCharVal (c : Char) : Nat := (digChar? c).getD 0

/-- Fold a digit string into its value in base `b` (total; meaningful when
every character is a valid digit for `b`). -/
def valFold (b : Nat) (cs : List Char) : Nat :=
  cs.foldl (fun a c => b * a + digCharVal c) 0

/-- Core digit-run parser of Python `int(_, b)`: every character must be a
digit of value `< b`; accumulates the value. -/
def digitsValCore (b : Nat) (acc : Nat) : List Char → Option Nat
  | [] => some acc
  | c :: cs =>
    match digChar? c with
    | some v => if v < b then digitsValCore b (b * acc + v) cs else none
    | none => none

/-- A non-empty valid digit run for base `b`, or `none` (Python raises
`ValueError`). -/
def digitsVal (b : Nat) (cs : List Char) : Option Nat :=
  match cs with
  | [] => none
  | _ => digitsValCore b 0 cs

/-- Strip the optional hexadecimal prefix, as `int(_, 16)` does. -/
def strip0x : List Char → List Char
  | '0' :: 'x' :: rest => rest
  | '0' :: 'X' :: rest => rest
  | cs => cs

/-- Strip the optional octal prefix, as `int(_, 8)` does. -/
def strip0o : List Char → List Char
  | '0' :: 'o' :: rest => rest
  | '0' :: 'O' :: rest => rest
  | cs => cs

/-- Base prefix stripping for the three bases the program uses. -/
def stripBase (b : Nat) : List Char → List Char :=
  if b = 16 then strip0x else if b = 8 then strip0o else id

/-- Python `int(s, b)` for `b ∈ {8, 10, 16}` on a whitespace-free string:
optional sign, optional base prefix, non-empty valid digit run. -/
def pyIntL (b : Nat) (cs : List Char) : Option Int :=
  match cs with
  | '-' :: rest => (digitsVal b (stripBase b rest)).map (fun n => -Int.ofNat n)
  | '+' :: rest => (digitsVal b (stripBase b rest)).map (fun n => Int.ofNat n)
  | _ => (digitsVal b (stripBase b cs)).map (fun n => Int.ofNat n)

/-- Python `int(s, b)` on a `String`. -/
def pyInt (b : Nat) (s : String) : Option Int := pyIntL b s.data

/-! ### `Str2Int` (analyser.py lines 17-25) -/

/-- `Str2Int` on a character list: empty string is 0; `0x` prefix means
base 16, any other leading `0` means base 8, otherwise base 10. -/
def Str2IntL (cs : List Char) : Option Int :=
  if cs = [] then some 0
  else if cs.take 2 = ['0', 'x'] then pyIntL 16 cs
  else if cs.take 1 = ['0'] then pyIntL 8 cs
  else pyIntL 10 cs

/-- `Str2Int` (analyser.py lines 17-25). -/
def Str2Int (s : String) : Option Int := Str2IntL s.data

/-! ### `ParseConfigValue` (analyser.py lines 28-62) -/

/-- The whitespace class of the regex `\s` (ASCII part): the characters
removed by `re.sub(r'\s+', '', value)`. -/
def isPySpace (c : Char) : Bool :=
  c = ' ' || c = '\t' || c = '\n' || c = '\r' || c = '\x0b' || c = '\x0c'

/-- Python `str.split(sep)` for a one-character separator: keeps empty
segments, always returns at least one segment. -/
def splitOnChar (sep : Char) : List Char → List (List Char)
  | [] => [[]]
  | c :: rest =>
    let r := splitOnChar sep rest
    if c = sep then [] :: r
    else
      match r with
      | [] => [[c]]
      | g :: gs => (c :: g) :: gs

/-- `ParseConfigValue` on a character list (analyser.py lines 28-62):
strip whitespace, split on `=` (segment 1, when present, is the default
value, else 0), split the first segment on `:` (one offset, or start and
end), and swap so that start is not greater than end. -/
def ParseConfigValueL (cfg : List Char) : Option (Int × Int × Int) :=
  let ss := splitOnChar '=' (cfg.filter (fun c => !(isPySpace c)))
  let dv? : Option Int :=
    match ss with
    | _ :: s1 :: _ => Str2IntL s1
    | _ => some 0
  match dv? with
  | none => none
  | some dv =>
    let offsets := splitOnChar ':' (ss.headD [])
    match Str2IntL (offsets.headD []) with
    | none => none
    | some st =>
      let en? : Option Int :=
        match offsets with
        | _ :: o1 :: _ => Str2IntL o1
        | _ => some st
      match en? with
      | none => none
      | some en => if st > en then some (dv, en, st) else some (dv, st, en)

/-- `ParseConfigValue` (analyser.py lines 28-62), returning
`(default, start, end)` or `none` when Python would raise. -/
def ParseConfigValue (s : String) : Option (Int × Int × Int) :=
  ParseConfigValueL s.data

/-! ### Numeral rendering (Python `bin`, `format`, `zfill`, `bytes.hex`) -/

/-- Little-endian digits of `n` in base `b`, with explicit fuel (the fuel
`n` itself always suffices); structural recursion keeps concrete
evaluation kernel-reducible. -/
def digitsRevAux (b : Nat) : Nat → Nat → List Nat
  | 0, _ => []
  | _ + 1, 0 => []
  | fuel + 1, n => n % b :: digitsRevAux b fuel (n / b)

/-- Little-endian digits of `n` in base `b` (empty for 0). -/
def digitsRev (b n : Nat) : List Nat := digitsRevAux b n n

/-- Lowercase character of one digit value, as Python renders digits:
`0-9` then `a-f`. -/
def digitChToLower (d : Nat) : Char :=
  if d < 10 then Char.ofNat (48 + d) else Char.ofNat (87 + d)

/-- Python's digit string of `n` in base `b` without prefix: minimal
length, most significant digit first, `"0"` for 0.  This is `bin(n)[2:]`
for base 2 and `'%x' % n` for base 16. -/
def pyNumRepr (b n : Nat) : List Char :=
  if n = 0 then ['0'] else ((digitsRev b n).reverse.map digitChToLower)

/-- Python `str.zfill(w)`: left-pad with `'0'` to length at least `w`. -/
def zfill (w : Nat) (cs : List Char) : List Char :=
  List.replicate (w - cs.length) '0' ++ cs

/-- Fixed-width base-`b` digits of `n`, most significant first (the
canonical reference form used by the theorems). -/
def digitsBE (b : Nat) : Nat → Nat → List Nat
  | 0, _ => []
  | w + 1, n => digitsBE b w (n / b) ++ [n % b]

/-- Fixed-width big-endian bits of `n` (canonical reference form). -/
def bitsBE (w n : Nat) : List Bool := (digitsBE 2 w n).map (fun d => d == 1)

/-- Value of a most-significant-first digit list in base `b`. -/
def valFoldNat (b : Nat) (ds : List Nat) : Nat := ds.foldl (fun a d => b * a + d) 0

/-! ### `bitarray` serialization (`tobytes().hex().upper()`) -/

/-- Value of one byte given as up-to-8 bits, most significant first. -/
def byteVal (bs : List Bool) : Nat := bs.foldl (fun a b => 2 * a + (if b then 1 else 0)) 0

/-- `bitarray.tobytes()`: chunk the bits into bytes from the front,
zero-padding the final partial byte on the right. -/
def toBytes : List Bool → List Nat
  | [] => []
  | b0 :: b1 :: b2 :: b3 :: b4 :: b5 :: b6 :: b7 :: rest =>
    byteVal [b0, b1, b2, b3, b4, b5, b6, b7] :: toBytes rest
  | bs => [byteVal (bs ++ List.replicate (8 - bs.length) false)]

/-- `bytes.hex()`: two lowercase hex characters per byte. -/
def bytesToHexLower (bys : List Nat) : List Char :=
  bys.foldr (fun b acc => digitChToLower (b / 16) :: digitChToLower (b % 16) :: acc) []

/-- `bits.tobytes().hex().upper()` as a `String` — the serialization used
by `Reg32View.getReg32HexStr` (line 227) and `FieldsView.parse`
(line 333). -/
def tobytesHexUpper (bits : List Bool) : String :=
  ⟨(bytesToHexLower (toBytes bits)).map Char.toUpper⟩

/-! ### `FieldsView.parse` buffer construction (analyser.py lines 322-324) -/

/-- The bit buffer built by `FieldsView.parse`:
`bitarray(bin(int(hexstr, 16))[2:].zfill(len(hexstr) << 2))`.
`int` raising (empty or invalid string) and `bin` of a negative value
(whose digit string the `bitarray` constructor rejects) give `none`. -/
def bitBufferFromHex (hexstr : String) : Option (List Bool) :=
  match pyInt 16 hexstr with
  | none => none
  | some v =>
    if v < 0 then none
    else some ((zfill (hexstr.length <<< 2) (pyNumRepr 2 v.toNat)).map (fun c => c == '1'))

/-! ### `Reg32View` (analyser.py lines 137-238)

The register state is the `bitarray(32)` field `reg32bits` (a
`List Bool`); the `BitView` widgets mirror it and carry no extra state.
-/

/-- The bits written by `setReg32Value` for a non-negative value:
`bitarray(f'{value:032b}')`.  Note `{value:032b}` zero-pads to width *at
least* 32 — for `value ≥ 2^32` the result is longer than 32 bits. -/
def reg32BitsOfNat (n : Nat) : List Bool :=
  (zfill 32 (pyNumRepr 2 n)).map (fun c => c == '1')

/-- `Reg32View.setReg32Value` (lines 235-238): `none` models the
exception raised by `bitarray` on the `-`-prefixed format of a negative
value. -/
def setReg32Value (value : Int) : Option (List Bool) :=
  if value < 0 then none else some (reg32BitsOfNat value.toNat)

/-- `Reg32View.onReg32BitChanged` (lines 209-211): view bit `bit_index`
is stored at buffer index `31 - bit_index`. -/
def onReg32BitChanged (bits : List Bool) (bit_index : Nat) (bit_value : Bool) : List Bool :=
  bits.set (31 - bit_index) bit_value

/-- `Reg32View.getReg32HexStr` (lines 223-227):
`reg32bits.tobytes().hex().upper()`. -/
def getReg32HexStr (bits : List Bool) : String := tobytesHexUpper bits

/-- `Reg32View.getReg32Value` (lines 229-233): `int(getReg32HexStr(), 16)`. -/
def getReg32Value (bits : List Bool) : Option Int := pyInt 16 (getReg32HexStr bits)

/-- The register state after `Reg32View.update(dword, hexstr)` on a word
whose index changed (lines 200-204): `setReg32Value(int(hexstr, 16))`. -/
def reg32FromHex (hexstr : String) : Option (List Bool) :=
  match pyInt 16 hexstr with
  | none => none
  | some v => setReg32Value v

/-! ### `InputEdit.updateHexStr` (analyser.py lines 271-279) -/

/-- Sequential element assignment `l[pos] = v0; l[pos+1] = v1; ...`, the
loop of `updateHexStr`. -/
def setSeq : List Char → Nat → List Char → List Char
  | l, _, [] => l
  | l, pos, a :: as => setSeq (l.set pos a) (pos + 1) as

/-- `f'{n:08X}'` for `n < 2^32`: uppercase hexadecimal, zero-padded to
width 8. -/
def pyHex8UpperChars (n : Nat) : List Char :=
  (zfill 8 (pyNumRepr 16 n)).map Char.toUpper

/-- `InputEdit.updateHexStr(dword, value)` acting on the current text
(lines 271-279): mask the value with `& 0xFFFFFFFF`, format it as 8
uppercase hex digits, and assign them at positions
`dword*8 .. dword*8+7`; `none` models the `IndexError` when the text is
too short (the text is then left unchanged). -/
def updateHexStr (dword : Nat) (value : Int) (text : String) : Option String :=
  let v : Nat := (value % ((2 : Int) ^ 32)).toNat
  let lvalue := pyHex8UpperChars v
  let pos := dword <<< 3
  if pos + 8 ≤ text.data.length then some ⟨setSeq text.data pos lvalue⟩ else none

/-! ### `FieldsView.parse` per-field decoding (analyser.py lines 327-335) -/

/-- The value string computed for one field by `FieldsView.parse`:
a single buffer bit `str(int(bitarray[start]))` when the offsets are
equal (`none` models the `IndexError` on an out-of-range index), else
`'0x' + bitarray[start:end].tobytes().hex().upper()` — a Python slice,
so exclusive of `end` and silently clamped to the buffer. -/
def parseFieldValue (bits : List Bool) (start_offset end_offset : Nat) : Option String :=
  if start_offset = end_offset then
    (bits.get? start_offset).map (fun b => if b then "1" else "0")
  else
    some ("0x" ++ tobytesHexUpper ((bits.take end_offset).drop start_offset))

/-! ### Spec-side reference definitions -/

/-- Modelled from the spec: the numeric-literal grammar of §4.1 step 4 and
its value — an empty literal is 0, a literal prefixed `0x` is hexadecimal,
a literal prefixed `0` is octal, any other literal (optionally signed) is
decimal; `none` when the literal is not a well-formed integer of the
grammar. -/
def specLiteralValue (s : String) : Option Int :=
  match s.data with
  | [] => some 0
  | '0' :: 'x' :: rest =>
    if rest ≠ [] ∧ ∀ c ∈ rest, ∃ v, digChar? c = some v ∧ v < 16 then
      some (valFold 16 rest)
    else none
  | '0' :: rest =>
    if ∀ c ∈ rest, ∃ v, digChar? c = some v ∧ v < 8 then
      some (valFold 8 ('0' :: rest))
    else none
  | '-' :: rest =>
    if rest ≠ [] ∧ ∀ c ∈ rest, ∃ v, digChar? c = some v ∧ v < 10 then
      some (-(valFold 10 rest : Int))
    else none
  | '+' :: rest =>
    if rest ≠ [] ∧ ∀ c ∈ rest, ∃ v, digChar? c = some v ∧ v < 10 then
      some ((valFold 10 rest : Int))
    else none
  | cs =>
    if ∀ c ∈ cs, ∃ v, digChar? c = some v ∧ v < 10 then
      some ((valFold 10 cs : Int))
    else none

/-- The bits of the half-open range `[a, b)` of a buffer, written
independently of the slice operation: bit `i` of the result is buffer bit
`a + i`. -/
def subBitsHalfOpen (l : List Bool) (a b : Nat) : List Bool :=
  (List.range (b - a)).map (fun i => l.getD (a + i) false)

/-- Modelled from the spec (§4.3/§4.5): the raw value of a multi-bit
field as the spec states it — the bits of the *inclusive* sub-range
`[start, end]`, as a big-endian byte sequence (right-padded with zero
bits to a byte boundary), rendered as `0x` plus uppercase hex. -/
def specInclusiveRawValue (l : List Bool) (start_offset end_offset : Nat) : String :=
  "0x" ++ tobytesHexUpper ((List.range (end_offset + 1 - start_offset)).map
    (fun i => l.getD (start_offset + i) false))

/-- Python `str.upper()` (ASCII: the only characters the program feeds it
are hexadecimal digits). -/
def pyUpper (s : String) : String := ⟨s.data.map Char.toUpper⟩

/-- `f'{n:08X}'` as a `String`. -/
def pyHex8Upper (n : Nat) : String := ⟨pyHex8UpperChars n⟩

/-! ### Toolkit: fixed-width digit lists -/

theorem digitsBE_length (b w : Nat) : ∀ n, (digitsBE b w n).length = w := by
  induction w with
  | zero => intro n; simp [digitsBE]
  | succ w ih => intro n; simp [digitsBE, ih]

theorem digitsBE_zero (b : Nat) : ∀ w, digitsBE b w 0 = List.replicate w 0 := by
  intro w
  induction w with
  | zero => simp [digitsBE]
  | succ w ih => simp [digitsBE, ih, List.replicate_succ']

theorem digitsBE_mem_lt (b w : Nat) (hb : 0 < b) :
    ∀ n, ∀ d ∈ digitsBE b w n, d < b := by
  induction w with
  | zero => intro n d hd; simp [digitsBE] at hd
  | succ w ih =>
    intro n d hd
    simp only [digitsBE, List.mem_append, List.mem_singleton] at hd
    rcases hd with hd | rfl
    · exact ih _ d hd
    · exact Nat.mod_lt _ hb

theorem digitsBE_split (b a : Nat) :
    ∀ c n, digitsBE b (a + c) n = digitsBE b a (n / b ^ c) ++ digitsBE b c (n % b ^ c) := by
  intro c
  induction c with
  | zero => intro n; simp [digitsBE]
  | succ c ih =>
    intro n
    have h1 : n / b / b ^ c = n / b ^ (c + 1) := by
      rw [Nat.div_div_eq_div_mul, pow_succ, Nat.mul_comm]
    have h2 : n % b ^ (c + 1) / b = n / b % b ^ c := by
      have : b ^ (c + 1) = b * b ^ c := by rw [pow_succ, Nat.mul_comm]
      rw [this, Nat.mod_mul_right_div_self]
    have h3 : n % b ^ (c + 1) % b = n % b := by
      exact Nat.mod_mod_of_dvd n (dvd_pow_self b (Nat.succ_ne_zero c))
    show digitsBE b (a + c + 1) n = _
    simp only [digitsBE, ih (n / b), h1, h2, h3, List.append_assoc]

theorem digitsBE_head_form (b k n : Nat) (hb : 0 < b) (hn : n < b ^ (k + 1)) :
    digitsBE b (k + 1) n = (n / b ^ k) :: digitsBE b k (n % b ^ k) := by
  have hq : n / b ^ k < b := by
    rw [Nat.div_lt_iff_lt_mul (Nat.pos_pow_of_pos k hb)]
    calc n < b ^ (k + 1) := hn
    _ = b * b ^ k := by rw [pow_succ, Nat.mul_comm]
    _ = b * b ^ k := rfl
  have : digitsBE b (1 + k) n = digitsBE b 1 (n / b ^ k) ++ digitsBE b k (n % b ^ k) :=
    digitsBE_split b 1 k n
  rw [Nat.add_comm 1 k] at this
  rw [this]
  simp [digitsBE, Nat.mod_eq_of_lt hq]

theorem foldl_base_init (b : Nat) (ds : List Nat) :
    ∀ acc, ds.foldl (fun a d => b * a + d) acc = acc * b ^ ds.length + valFoldNat b ds := by
  induction ds with
  | nil => intro acc; simp [valFoldNat]
  | cons d ds ih =>
    intro acc
    simp only [List.foldl_cons, List.length_cons, valFoldNat]
    rw [ih (b * acc + d), ih (b * 0 + d)]
    ring

theorem valFoldNat_cons (b d : Nat) (ds : List Nat) :
    valFoldNat b (d :: ds) = d * b ^ ds.length + valFoldNat b ds := by
  simp only [valFoldNat, List.foldl_cons]
  rw [foldl_base_init]
  simp only [valFoldNat]
  ring

theorem valFoldNat_lt (b : Nat) (hb : 0 < b) (ds : List Nat) (h : ∀ d ∈ ds, d < b) :
    valFoldNat b ds < b ^ ds.length := by
  induction ds with
  | nil => simpa [valFoldNat] using Nat.one_pos
  | cons d ds ih =>
    rw [valFoldNat_cons]
    have hd : d < b := h d (List.mem_cons_self d ds)
    have hds := ih (fun x hx => h x (List.mem_cons_of_mem d hx))
    calc d * b ^ ds.length + valFoldNat b ds
        < d * b ^ ds.length + b ^ ds.length := by omega
    _ = (d + 1) * b ^ ds.length := by ring
    _ ≤ b * b ^ ds.length := Nat.mul_le_mul_right _ (by omega)
    _ = b ^ (ds.length + 1) := by rw [pow_succ, Nat.mul_comm]
    _ = b ^ (d :: ds).length := by simp

theorem valFoldNat_digitsBE (b w : Nat) (hb : 0 < b) :
    ∀ n, n < b ^ w → valFoldNat b (digitsBE b w n) = n := by
  induction w with
  | zero =>
    intro n hn
    have hn0 : n = 0 := by simpa [Nat.lt_one_iff] using hn
    subst hn0
    simp [digitsBE, valFoldNat]
  | succ w ih =>
    intro n hn
    have hdiv : n / b < b ^ w := by
      rw [Nat.div_lt_iff_lt_mul hb]
      calc n < b ^ (w + 1) := hn
      _ = b ^ w * b := pow_succ b w
    simp only [digitsBE, valFoldNat, List.foldl_append, List.foldl_cons, List.foldl_nil]
    have : List.foldl (fun a d => b * a + d) 0 (digitsBE b w (n / b)) = n / b := ih (n / b) hdiv
    rw [this, Nat.div_add_mod]

theorem digitsBE_valFoldNat (b : Nat) (hb : 0 < b) :
    ∀ ds : List Nat, (∀ d ∈ ds, d < b) → digitsBE b ds.length (valFoldNat b ds) = ds := by
  intro ds
  induction ds with
  | nil => intro _; simp [digitsBE]
  | cons d ds ih =>
    intro h
    have hd : d < b := h d (List.mem_cons_self d ds)
    have hds : ∀ x ∈ ds, x < b := fun x hx => h x (List.mem_cons_of_mem d hx)
    have hlt : valFoldNat b ds < b ^ ds.length := valFoldNat_lt b hb ds hds
    have hn : valFoldNat b (d :: ds) < b ^ (ds.length + 1) := by
      rw [valFoldNat_cons]
      calc d * b ^ ds.length + valFoldNat b ds < (d + 1) * b ^ ds.length := by
            have := hlt; ring_nf; omega
      _ ≤ b * b ^ ds.length := Nat.mul_le_mul_right _ (by omega)
      _ = b ^ (ds.length + 1) := by rw [pow_succ, Nat.mul_comm]
    rw [List.length_cons, digitsBE_head_form b ds.length _ hb hn, valFoldNat_cons]
    have hB : 0 < b ^ ds.length := Nat.pos_pow_of_pos _ hb
    have hq : (d * b ^ ds.length + valFoldNat b ds) / b ^ ds.length = d := by
      rw [Nat.mul_comm d, Nat.mul_add_div hB, Nat.div_eq_of_lt hlt]
      omega
    have hr : (d * b ^ ds.length + valFoldNat b ds) % b ^ ds.length = valFoldNat b ds := by
      rw [Nat.mul_comm d, Nat.mul_add_mod, Nat.mod_eq_of_lt hlt]
    rw [hq, hr, ih hds]

/-! ### Toolkit: minimal digit strings and zero-filling -/

theorem digitsRevAux_eq_digits (b : Nat) (hb : 2 ≤ b) :
    ∀ fuel n, n ≤ fuel → digitsRevAux b fuel n = Nat.digits b n := by
  intro fuel
  induction fuel with
  | zero =>
    intro n hn
    have : n = 0 := by omega
    subst this
    simp [digitsRevAux]
  | succ fuel ih =>
    intro n hn
    match n with
    | 0 => simp [digitsRevAux]
    | m + 1 =>
      rw [Nat.digits_def' (by omega : 1 < b) (Nat.succ_pos m)]
      show (m + 1) % b :: digitsRevAux b fuel ((m + 1) / b) = _
      have hdiv : (m + 1) / b ≤ fuel := by
        have : (m + 1) / b < m + 1 := Nat.div_lt_self (Nat.succ_pos m) (by omega)
        omega
      rw [ih _ hdiv]

theorem digitsRev_eq_digits (b n : Nat) (hb : 2 ≤ b) : digitsRev b n = Nat.digits b n :=
  digitsRevAux_eq_digits b hb n n (Nat.le_refl n)

theorem digitsBE_eq_pad (b : Nat) (hb : 1 < b) :
    ∀ w n, n < b ^ w →
      digitsBE b w n =
        List.replicate (w - (Nat.digits b n).length) 0 ++ (Nat.digits b n).reverse := by
  intro w
  induction w with
  | zero =>
    intro n hn
    have : n = 0 := by simpa [Nat.lt_one_iff] using hn
    subst this
    simp [digitsBE]
  | succ w ih =>
    intro n hn
    rcases Nat.eq_zero_or_pos n with rfl | hp
    · simp [digitsBE_zero]
    · have hb0 : 0 < b := by omega
      have hdiv : n / b < b ^ w := by
        rw [Nat.div_lt_iff_lt_mul hb0]
        calc n < b ^ (w + 1) := hn
        _ = b ^ w * b := pow_succ b w
      rw [Nat.digits_def' hb hp]
      show digitsBE b w (n / b) ++ [n % b] = _
      rw [ih (n / b) hdiv]
      simp only [List.reverse_cons, List.length_cons, List.append_assoc]
      have hlen : w + 1 - ((Nat.digits b (n / b)).length + 1) =
          w - (Nat.digits b (n / b)).length := by omega
      rw [hlen]

theorem digitChToLower_zero : digitChToLower 0 = '0' := by decide

theorem zfill_pyNumRepr (b w n : Nat) (hb : 2 ≤ b) (hw : 1 ≤ w) (hn : n < b ^ w) :
    zfill w (pyNumRepr b n) = (digitsBE b w n).map digitChToLower := by
  rcases Nat.eq_zero_or_pos n with rfl | hp
  · rw [digitsBE_zero, List.map_replicate, digitChToLower_zero]
    show List.replicate (w - 1) '0' ++ ['0'] = _
    rw [← List.replicate_succ']
    congr 1
    omega
  · have hrepr : pyNumRepr b n = (Nat.digits b n).reverse.map digitChToLower := by
      simp only [pyNumRepr, digitsRev_eq_digits b n hb]
      rw [if_neg (by omega)]
    rw [hrepr, digitsBE_eq_pad b (by omega) w n hn, zfill]
    rw [List.map_append, List.map_replicate, digitChToLower_zero, List.map_reverse]
    congr 2
    simp

/-! ### Toolkit: bits, bytes and hex characters -/

theorem bitsBE_length (w n : Nat) : (bitsBE w n).length = w := by
  simp [bitsBE, digitsBE_length]

theorem zfill_bin_eq_bitsBE (w n : Nat) (hw : 1 ≤ w) (hn : n < 2 ^ w) :
    (zfill w (pyNumRepr 2 n)).map (fun c => c == '1') = bitsBE w n := by
  rw [zfill_pyNumRepr 2 w n (Nat.le_refl 2) hw hn, bitsBE, List.map_map]
  refine List.map_congr_left ?_
  intro d hd
  have : d < 2 := digitsBE_mem_lt 2 w (by omega) n d hd
  interval_cases d <;> decide

theorem foldl_bits_eq (ds : List Nat) (h : ∀ d ∈ ds, d < 2) :
    ∀ acc, ds.foldl (fun a d => 2 * a + (if d == 1 then 1 else 0)) acc
      = ds.foldl (fun a d => 2 * a + d) acc := by
  induction ds with
  | nil => intro _; rfl
  | cons d ds ih =>
    intro acc
    have hd : d < 2 := h d (List.mem_cons_self d ds)
    have hds := fun x hx => h x (List.mem_cons_of_mem d hx)
    simp only [List.foldl_cons]
    rw [ih hds]
    have harg : 2 * acc + (if d == 1 then 1 else 0) = 2 * acc + d := by
      interval_cases d <;> simp
    rw [harg]

theorem byteVal_eq_valFoldNat (ds : List Nat) (h : ∀ d ∈ ds, d < 2) :
    byteVal (ds.map (fun d => d == 1)) = valFoldNat 2 ds := by
  simp only [byteVal, valFoldNat, List.foldl_map]
  exact foldl_bits_eq ds h 0

theorem toBytes_append8 (l8 rest : List Bool) (h : l8.length = 8) :
    toBytes (l8 ++ rest) = byteVal l8 :: toBytes rest := by
  rcases l8 with _ | ⟨b0, _ | ⟨b1, _ | ⟨b2, _ | ⟨b3, _ | ⟨b4, _ | ⟨b5, _ | ⟨b6, _ | ⟨b7, tail⟩⟩⟩⟩⟩⟩⟩⟩ <;>
    simp only [List.length_cons, List.length_nil] at h <;> try omega
  have htail : tail = [] := List.eq_nil_of_length_eq_zero (by omega)
  subst htail
  rfl

theorem toBytes_bitsBE : ∀ k n, n < 2 ^ (8 * k) → toBytes (bitsBE (8 * k) n) = digitsBE 256 k n := by
  intro k
  induction k with
  | zero => intro n hn; simp [bitsBE, digitsBE]; rfl
  | succ k ih =>
    intro n hn
    have hpow : (2 : Nat) ^ (8 * k) = 256 ^ k := by
      rw [Nat.pow_mul]
    have hsplit : digitsBE 2 (8 + 8 * k) n =
        digitsBE 2 8 (n / 2 ^ (8 * k)) ++ digitsBE 2 (8 * k) (n % 2 ^ (8 * k)) :=
      digitsBE_split 2 8 (8 * k) n
    have hq : n / 2 ^ (8 * k) < 256 := by
      rw [Nat.div_lt_iff_lt_mul (Nat.pos_pow_of_pos _ (by omega))]
      calc n < 2 ^ (8 * (k + 1)) := hn
      _ = 256 * 2 ^ (8 * k) := by rw [Nat.mul_succ, pow_add]; ring_nf
    have hr : n % 2 ^ (8 * k) < 2 ^ (8 * k) := Nat.mod_lt _ (Nat.pos_pow_of_pos _ (by omega))
    have h8 : 8 * (k + 1) = 8 + 8 * k := by ring
    rw [h8, bitsBE, hsplit, List.map_append]
    rw [toBytes_append8 _ _ (by simpa using digitsBE_length 2 8 (n / 2 ^ (8 * k)))]
    have hbyte : byteVal ((digitsBE 2 8 (n / 2 ^ (8 * k))).map (fun d => d == 1))
        = n / 2 ^ (8 * k) := by
      rw [byteVal_eq_valFoldNat _ (digitsBE_mem_lt 2 8 (by omega) _)]
      exact valFoldNat_digitsBE 2 8 (by omega) _ hq
    rw [hbyte]
    show _ = digitsBE 256 (k + 1) n
    have hn' : n < 256 ^ (k + 1) := by
      calc n < 2 ^ (8 * (k + 1)) := hn
      _ = 256 ^ (k + 1) := by rw [Nat.pow_mul]
    rw [digitsBE_head_form 256 k n (by omega) hn', ← hpow]
    congr 1
    exact ih (n % 2 ^ (8 * k)) hr

theorem bytesToHexLower_digitsBE :
    ∀ k n, n < 256 ^ k → bytesToHexLower (digitsBE 256 k n) = (digitsBE 16 (2 * k) n).map digitChToLower := by
  intro k
  induction k with
  | zero => intro n hn; simp [digitsBE, bytesToHexLower]
  | succ k ih =>
    intro n hn
    have h256 : (0 : Nat) < 256 ^ k := Nat.pos_pow_of_pos _ (by omega)
    have hq : n / 256 ^ k < 256 := by
      rw [Nat.div_lt_iff_lt_mul h256]
      calc n < 256 ^ (k + 1) := hn
      _ = 256 ^ k * 256 := pow_succ 256 k
      _ = 256 * 256 ^ k := Nat.mul_comm _ _
    have hr : n % 256 ^ k < 256 ^ k := Nat.mod_lt _ h256
    have h16 : (16 : Nat) ^ (2 * k) = 256 ^ k := by rw [Nat.pow_mul]
    rw [digitsBE_head_form 256 k n (by omega) hn]
    have h2 : 2 * (k + 1) = 2 + 2 * k := by ring
    rw [h2, digitsBE_split 16 2 (2 * k) n, h16, List.map_append]
    have hq16 : n / 256 ^ k / 16 < 16 := (Nat.div_lt_iff_lt_mul (by omega)).mpr (by omega)
    have hd2 : digitsBE 16 2 (n / 256 ^ k) = [n / 256 ^ k / 16, n / 256 ^ k % 16] := by
      simp [digitsBE, Nat.mod_eq_of_lt hq16]
    rw [hd2]
    show digitChToLower (n / 256 ^ k / 16) :: digitChToLower (n / 256 ^ k % 16) ::
        bytesToHexLower (digitsBE 256 k (n % 256 ^ k)) = _
    rw [ih _ hr]
    simp

theorem tobytesHexUpper_bitsBE (k n : Nat) (hn : n < 2 ^ (8 * k)) :
    tobytesHexUpper (bitsBE (8 * k) n) =
      ⟨(digitsBE 16 (2 * k) n).map (fun d => Char.toUpper (digitChToLower d))⟩ := by
  have hn' : n < 256 ^ k := by
    rw [← (by rw [Nat.pow_mul] : (2 : Nat) ^ (8 * k) = 256 ^ k)]
    exact hn
  rw [tobytesHexUpper, toBytes_bitsBE k n hn, bytesToHexLower_digitsBE k n hn', List.map_map]
  rfl

/-! ### Toolkit: hexadecimal digit characters -/

/-- The 22 characters accepted as hexadecimal digits. -/
def hexDigitChars : List Char :=
  ['A', '0', 'a', 'B', '1', 'b', 'C', '2', 'c', 'D', '3', 'd',
   'E', '4', 'e', 'F', '5', 'f', '6', '7', '8', '9']

/-- A valid hexadecimal digit character. -/
def isHexDigit (c : Char) : Prop := c ∈ hexDigitChars

instance (c : Char) : Decidable (isHexDigit c) := by unfold isHexDigit; infer_instance

theorem isHexDigit_facts (c : Char) (hc : isHexDigit c) :
    digChar? c = some (digCharVal c) ∧ digCharVal c < 16 ∧
      Char.toUpper (digitChToLower (digCharVal c)) = Char.toUpper c ∧
      c ≠ '-' ∧ c ≠ '+' ∧ c ≠ 'x' ∧ c ≠ 'X' := by
  have hmem : c ∈ hexDigitChars := hc
  clear hc
  fin_cases hmem <;>
    exact ⟨by decide, by decide, by decide, by decide, by decide, by decide, by decide⟩

theorem d16_facts (d : Nat) (hd : d < 16) :
    digChar? (Char.toUpper (digitChToLower d)) = some d ∧
      Char.toUpper (digitChToLower d) ≠ '-' ∧ Char.toUpper (digitChToLower d) ≠ '+' ∧
      Char.toUpper (digitChToLower d) ≠ 'x' ∧ Char.toUpper (digitChToLower d) ≠ 'X' := by
  interval_cases d <;> exact ⟨by decide, by decide, by decide, by decide, by decide⟩

/-! ### Toolkit: correctness of the digit-run parser -/

theorem digitsValCore_eq (b : Nat) :
    ∀ (cs : List Char), (∀ c ∈ cs, ∃ v, digChar? c = some v ∧ v < b) →
      ∀ acc, digitsValCore b acc cs = some (cs.foldl (fun a c => b * a + digCharVal c) acc) := by
  intro cs
  induction cs with
  | nil => intro _ acc; rfl
  | cons c cs ih =>
    intro h acc
    obtain ⟨v, hv, hvb⟩ := h c (List.mem_cons_self c cs)
    have hval : digCharVal c = v := by simp [digCharVal, hv]
    show (match digChar? c with
      | some v => if v < b then digitsValCore b (b * acc + v) cs else none
      | none => none) = _
    rw [hv]
    simp only [hvb, if_true]
    rw [ih (fun x hx => h x (List.mem_cons_of_mem c hx)) (b * acc + v), List.foldl_cons, hval]

theorem digitsVal_eq (b : Nat) (cs : List Char) (hne : cs ≠ [])
    (h : ∀ c ∈ cs, ∃ v, digChar? c = some v ∧ v < b) :
    digitsVal b cs = some (valFold b cs) := by
  match cs, hne with
  | c :: cs, _ => exact digitsValCore_eq b (c :: cs) h 0

theorem valFold_eq_valFoldNat (b : Nat) (cs : List Char) :
    valFold b cs = valFoldNat b (cs.map digCharVal) := by
  simp [valFold, valFoldNat, List.foldl_map]

theorem valFold_lt (b : Nat) (hb : 0 < b) (cs : List Char)
    (h : ∀ c ∈ cs, digCharVal c < b) : valFold b cs < b ^ cs.length := by
  rw [valFold_eq_valFoldNat]
  have hmap : ∀ d ∈ cs.map digCharVal, d < b := by
    intro d hd
    obtain ⟨c, hc, rfl⟩ := List.mem_map.mp hd
    exact h c hc
  have := valFoldNat_lt b hb (cs.map digCharVal) hmap
  simpa using this

theorem digitsBE_valFold (b : Nat) (hb : 0 < b) (cs : List Char)
    (h : ∀ c ∈ cs, digCharVal c < b) :
    digitsBE b cs.length (valFold b cs) = cs.map digCharVal := by
  rw [valFold_eq_valFoldNat]
  have hmap : ∀ d ∈ cs.map digCharVal, d < b := by
    intro d hd
    obtain ⟨c, hc, rfl⟩ := List.mem_map.mp hd
    exact h c hc
  have := digitsBE_valFoldNat b hb (cs.map digCharVal) hmap
  simpa using this

theorem strip0x_of_hexdigits (cs : List Char) (h : ∀ c ∈ cs, isHexDigit c) :
    strip0x cs = cs := by
  unfold strip0x
  split
  · rename_i r
    have hx : isHexDigit 'x' := h 'x' (List.mem_cons_of_mem _ (List.mem_cons_self _ _))
    exact absurd hx (by decide)
  · rename_i r
    have hx : isHexDigit 'X' := h 'X' (List.mem_cons_of_mem _ (List.mem_cons_self _ _))
    exact absurd hx (by decide)
  · rfl

theorem pyIntL16_hexdigits (cs : List Char) (hne : cs ≠ [])
    (h : ∀ c ∈ cs, isHexDigit c) :
    pyIntL 16 cs = some ((valFold 16 cs : Nat) : Int) := by
  have hstrip : stripBase 16 cs = cs := by
    simp only [stripBase, if_pos rfl]
    exact strip0x_of_hexdigits cs h
  have hdv : digitsVal 16 cs = some (valFold 16 cs) := by
    apply digitsVal_eq 16 cs hne
    intro c hc
    obtain ⟨h1, h2, _⟩ := isHexDigit_facts c (h c hc)
    exact ⟨digCharVal c, h1, h2⟩
  unfold pyIntL
  split
  · have hm : isHexDigit '-' := h '-' (List.mem_cons_self _ _)
    exact absurd hm (by decide)
  · have hm : isHexDigit '+' := h '+' (List.mem_cons_self _ _)
    exact absurd hm (by decide)
  · rw [hstrip, hdv]
    rfl

theorem pow16_len (k : Nat) : (16 : Nat) ^ (2 * k) = 2 ^ (8 * k) := by
  rw [(by norm_num : (16 : Nat) = 2 ^ 4), ← Nat.pow_mul]
  ring_nf

theorem hexString_chain (cs : List Char) (hne : cs ≠ []) (h : ∀ c ∈ cs, isHexDigit c)
    (hev : cs.length % 2 = 0) :
    tobytesHexUpper (bitsBE (4 * cs.length) (valFold 16 cs)) = ⟨cs.map Char.toUpper⟩ := by
  obtain ⟨k, hk⟩ : ∃ k, cs.length = 2 * k := ⟨cs.length / 2, by omega⟩
  have h16 : ∀ c ∈ cs, digCharVal c < 16 := fun c hc => (isHexDigit_facts c (h c hc)).2.1
  have hlt : valFold 16 cs < 2 ^ (8 * k) := by
    have hv := valFold_lt 16 (by omega) cs h16
    rw [hk, pow16_len k] at hv
    exact hv
  have h4 : 4 * cs.length = 8 * k := by omega
  rw [h4, tobytesHexUpper_bitsBE k _ hlt, ← hk, digitsBE_valFold 16 (by omega) cs h16,
    List.map_map]
  congr 1
  refine List.map_congr_left ?_
  intro c hc
  exact (isHexDigit_facts c (h c hc)).2.2.1

theorem pyInt16_hexdigits (s : String) (hne : s.data ≠ [])
    (h : ∀ c ∈ s.data, isHexDigit c) :
    pyInt 16 s = some ((valFold 16 s.data : Nat) : Int) :=
  pyIntL16_hexdigits s.data hne h

theorem bitBufferFromHex_eq (hstr : String) (hne : hstr.data ≠ [])
    (h : ∀ c ∈ hstr.data, isHexDigit c) :
    bitBufferFromHex hstr = some (bitsBE (4 * hstr.data.length) (valFold 16 hstr.data)) := by
  have hp : pyInt 16 hstr = some ((valFold 16 hstr.data : Nat) : Int) :=
    pyInt16_hexdigits hstr hne h
  have h16 : ∀ c ∈ hstr.data, digCharVal c < 16 :=
    fun c hc => (isHexDigit_facts c (h c hc)).2.1
  have hlen : 0 < hstr.data.length := List.length_pos.mpr hne
  have hlt : valFold 16 hstr.data < 2 ^ (4 * hstr.data.length) := by
    calc valFold 16 hstr.data < 16 ^ hstr.data.length := valFold_lt 16 (by omega) _ h16
    _ = 2 ^ (4 * hstr.data.length) := by
      rw [(by norm_num : (16 : Nat) = 2 ^ 4), ← Nat.pow_mul]
  have hneg : ¬(((valFold 16 hstr.data : Nat) : Int) < 0) := not_lt.mpr (Int.natCast_nonneg _)
  have hshift : hstr.length <<< 2 = 4 * hstr.data.length := by
    show hstr.data.length <<< 2 = _
    rw [Nat.shiftLeft_eq]
    ring_nf
  simp only [bitBufferFromHex, hp]
  rw [if_neg hneg, hshift, Int.toNat_natCast, zfill_bin_eq_bitsBE _ _ (by omega) hlt]

theorem reg32BitsOfNat_eq (n : Nat) (hn : n < 2 ^ 32) :
    reg32BitsOfNat n = bitsBE 32 n := by
  unfold reg32BitsOfNat
  exact zfill_bin_eq_bitsBE 32 n (by omega) hn

theorem setReg32Value_natCast (n : Nat) : setReg32Value (n : Int) = some (reg32BitsOfNat n) := by
  unfold setReg32Value
  rw [if_neg (not_lt.mpr (Int.natCast_nonneg n)), Int.toNat_natCast]

theorem reg32FromHex_eq (hstr : String) (hne : hstr.data ≠ [])
    (h : ∀ c ∈ hstr.data, isHexDigit c) :
    reg32FromHex hstr = some (reg32BitsOfNat (valFold 16 hstr.data)) := by
  simp only [reg32FromHex, pyInt16_hexdigits hstr hne h]
  exact setReg32Value_natCast _

/-! ### Claim C1 -/

/-- C1, counterexample to the claim as stated: the empty string has even
length and only valid hexadecimal digits, but `int('', 16)` raises, so the
bit buffer cannot be constructed at all and the round trip fails. -/
theorem c1_empty_string_fails :
    bitBufferFromHex "" = none ∧
      (bitBufferFromHex "").map tobytesHexUpper ≠ some (pyUpper "") := by
  exact ⟨rfl, by decide⟩

/-- C1 (amended): for every *nonempty* even-length string `h` of valid
hexadecimal digits, constructing the bit buffer from `h`
(`FieldsView.parse`, lines 322-324) and serializing it back with
`tobytes().hex().upper()` yields `h` uppercased; in particular for an
8-hex-digit string, setting the register from the string
(`Reg32View.update` / `setReg32Value`) and reading `getReg32HexStr`
returns the same string uppercased. -/
theorem c1_roundtrip_uppercase (h : String) (hne : h.data ≠ [])
    (hhex : ∀ c ∈ h.data, isHexDigit c) (hev : h.data.length % 2 = 0) :
    (bitBufferFromHex h).map tobytesHexUpper = some (pyUpper h) ∧
      (h.data.length = 8 → (reg32FromHex h).map getReg32HexStr = some (pyUpper h)) := by
  constructor
  · rw [bitBufferFromHex_eq h hne hhex, Option.map_some']
    congr 1
    exact hexString_chain h.data hne hhex hev
  · intro h8
    rw [reg32FromHex_eq h hne hhex, Option.map_some']
    congr 1
    have h16 : ∀ c ∈ h.data, digCharVal c < 16 :=
      fun c hc => (isHexDigit_facts c (hhex c hc)).2.1
    have hlt : valFold 16 h.data < 2 ^ 32 := by
      have hv := valFold_lt 16 (by omega) _ h16
      rw [h8] at hv
      calc valFold 16 h.data < 16 ^ 8 := hv
      _ = 2 ^ 32 := by norm_num
    show tobytesHexUpper (reg32BitsOfNat _) = _
    rw [reg32BitsOfNat_eq _ hlt]
    have hchain := hexString_chain h.data hne hhex hev
    rw [h8] at hchain
    exact hchain

/-- C1 witness: the amended round trip at the concrete input `"0a1b2C3d"`. -/
theorem c1_roundtrip_uppercase_witness :
    ("0a1b2C3d".data ≠ [] ∧ (∀ c ∈ "0a1b2C3d".data, isHexDigit c) ∧
        "0a1b2C3d".data.length % 2 = 0) ∧
      (bitBufferFromHex "0a1b2C3d").map tobytesHexUpper = some (pyUpper "0a1b2C3d") ∧
      (reg32FromHex "0a1b2C3d").map getReg32HexStr = some (pyUpper "0a1b2C3d") := by
  refine ⟨⟨by decide, by decide, by decide⟩, ?_, ?_⟩
  · exact (c1_roundtrip_uppercase "0a1b2C3d" (by decide) (by decide) (by decide)).1
  · exact (c1_roundtrip_uppercase "0a1b2C3d" (by decide) (by decide) (by decide)).2 (by decide)

/-! ### Claim C2 -/

theorem replicate_set_snoc {α : Type} (w : Nat) (a b : α) :
    (List.replicate (w + 1) a).set w b = List.replicate w a ++ [b] := by
  induction w with
  | zero => rfl
  | succ w ih =>
    show a :: (List.replicate (w + 1) a).set w b = _
    rw [ih]
    rfl

theorem digitsBE_two_pow : ∀ w i, i < w →
    digitsBE 2 w (2 ^ i) = (List.replicate w 0).set (w - 1 - i) 1 := by
  intro w
  induction w with
  | zero => intro i hi; omega
  | succ w ih =>
    intro i hi
    match i with
    | 0 =>
      show digitsBE 2 w (2 ^ 0 / 2) ++ [2 ^ 0 % 2] = _
      norm_num
      rw [digitsBE_zero, replicate_set_snoc]
    | i + 1 =>
      have hi' : i < w := by omega
      show digitsBE 2 w (2 ^ (i + 1) / 2) ++ [2 ^ (i + 1) % 2] = _
      have h1 : 2 ^ (i + 1) / 2 = 2 ^ i := by
        rw [pow_succ]
        exact Nat.mul_div_cancel _ (by omega)
      have h2 : 2 ^ (i + 1) % 2 = 0 := by
        rw [pow_succ]
        exact Nat.mul_mod_left _ 2
      have hidx : w + 1 - 1 - (i + 1) = w - 1 - i := by omega
      rw [h1, h2, ih i hi', hidx, List.replicate_succ', List.set_append,
        if_pos (by simp; omega)]

theorem bitsBE_two_pow (w i : Nat) (hi : i < w) :
    bitsBE w (2 ^ i) = (List.replicate w false).set (w - 1 - i) true := by
  rw [bitsBE, digitsBE_two_pow w i hi, List.map_set, List.map_replicate]
  rfl

theorem bitsBE_zero (w : Nat) : bitsBE w 0 = List.replicate w false := by
  rw [bitsBE, digitsBE_zero, List.map_replicate]
  rfl

theorem pyHex8UpperChars_eq (n : Nat) (hn : n < 2 ^ 32) :
    pyHex8UpperChars n = (digitsBE 16 8 n).map (fun d => Char.toUpper (digitChToLower d)) := by
  have h16 : n < 16 ^ 8 := by
    calc n < 2 ^ 32 := hn
    _ = 16 ^ 8 := by norm_num
  rw [pyHex8UpperChars, zfill_pyNumRepr 16 8 n (by omega) (by omega) h16, List.map_map]
  rfl

theorem getReg32HexStr_bitsBE (n : Nat) (hn : n < 2 ^ 32) :
    getReg32HexStr (bitsBE 32 n) = pyHex8Upper n := by
  have h32 : (32 : Nat) = 8 * 4 := by norm_num
  have hn' : n < 2 ^ (8 * 4) := by rw [← h32]; exact hn
  show tobytesHexUpper (bitsBE 32 n) = _
  rw [h32, tobytesHexUpper_bitsBE 4 n hn']
  rw [pyHex8Upper, pyHex8UpperChars_eq n hn]

/-- C2, counterexample to the claim as stated: on the zero word, setting
view bit 31 and serializing yields `"80000000"`, not `"00000001"` — view
bit 31 is the most-significant bit of the word, exactly as the data-model
sentence (and the source comment at lines 152-158) says; the `"00000001"`
expectation is wrong on the code. -/
theorem c2_view_bit31_is_msb :
    ((pyInt 16 "00000000").bind setReg32Value).map
        (fun bits => getReg32HexStr (onReg32BitChanged bits 31 true)) = some "80000000" ∧
      ("80000000" : String) ≠ "00000001" :=
  ⟨by decide, by decide⟩

/-- C2 (amended): one fixed translation `view_bit -> 31 - view_bit`
governs every bit access, so on the zero word at any view bit `vb < 32`,
setting `vb` gives the word the numeric value `2 ^ vb` (its 8-hex-digit
serialization is `f'{2^vb:08X}'`): view bit 0 is the least-significant
bit and view bit 31 the most-significant bit, whose serialization is
`"80000000"`. -/
theorem c2_bit_weight (vb : Nat) (hvb : vb < 32) :
    getReg32HexStr (onReg32BitChanged (reg32BitsOfNat 0) vb true) = pyHex8Upper (2 ^ vb) := by
  have h0 : reg32BitsOfNat 0 = List.replicate 32 false := by
    rw [reg32BitsOfNat_eq 0 (by norm_num), bitsBE_zero]
  have hset : onReg32BitChanged (List.replicate 32 false) vb true = bitsBE 32 (2 ^ vb) := by
    rw [onReg32BitChanged, bitsBE_two_pow 32 vb hvb]
  rw [h0, hset]
  exact getReg32HexStr_bitsBE (2 ^ vb) (Nat.pow_lt_pow_right (by omega) hvb)

/-- C2 witness: the amended statement at `vb = 31`, giving `"80000000"`. -/
theorem c2_bit_weight_witness :
    31 < 32 ∧
      getReg32HexStr (onReg32BitChanged (reg32BitsOfNat 0) 31 true) = pyHex8Upper (2 ^ 31) :=
  ⟨by decide, c2_bit_weight 31 (by decide)⟩

/-! ### Claim C3 -/

/-- C3: for every input string the offset-spec parser accepts, the
returned range satisfies `start ≤ end` — inverted textual offsets are
swapped — and in particular `"10:8"` and `"8:10"` both parse to
`(default 0, start 8, end 10)`. -/
theorem c3_normalized :
    (∀ (s : String) (d st en : Int), ParseConfigValue s = some (d, st, en) → st ≤ en) ∧
      ParseConfigValue "10:8" = some (0, 8, 10) ∧
      ParseConfigValue "8:10" = some (0, 8, 10) := by
  refine ⟨?_, by decide, by decide⟩
  intro s d st en h
  simp only [ParseConfigValue, ParseConfigValueL] at h
  repeat' split at h
  all_goals simp at h
  all_goals (obtain ⟨h1, h2, h3⟩ := h; omega)

/-- C3 witness: the normalization property applied at `"2:1=5"`. -/
theorem c3_normalized_witness :
    ParseConfigValue "2:1=5" = some (5, 1, 2) ∧ (1 : Int) ≤ 2 :=
  ⟨by decide, c3_normalized.1 "2:1=5" 5 1 2 (by decide)⟩

/-! ### Claim C5 -/

theorem splitOnChar_of_not_mem (sep : Char) :
    ∀ cs : List Char, sep ∉ cs → splitOnChar sep cs = [cs] := by
  intro cs
  induction cs with
  | nil => intro _; rfl
  | cons c rest ih =>
    intro h
    have hc : ¬(c = sep) := fun hh => h (hh ▸ List.mem_cons_self c rest)
    have hrest : sep ∉ rest := fun hh => h (List.mem_cons_of_mem c hh)
    simp only [splitOnChar, ih hrest, if_neg hc]

/-- C5: the parser returns `(default, start, end)` with the default taken
from the segment after `=` (0 when `=` is absent) and `start = end` when
the offsets part has no `:`; concretely `parse("8:10=7") = (7, 8, 10)`,
`parse("16:31=0x0800") = (2048, 16, 31)` and `parse("1") = (0, 1, 1)`. -/
theorem c5_spec_triple :
    ParseConfigValue "8:10=7" = some (7, 8, 10) ∧
      ParseConfigValue "16:31=0x0800" = some (2048, 16, 31) ∧
      ParseConfigValue "1" = some (0, 1, 1) ∧
      (∀ (s : String) (d st en : Int), ParseConfigValue s = some (d, st, en) →
        ('=' ∉ s.data.filter (fun c => !(isPySpace c)) → d = 0) ∧
        (':' ∉ (splitOnChar '=' (s.data.filter (fun c => !(isPySpace c)))).headD [] →
          st = en)) := by
  refine ⟨by decide, by decide, by decide, ?_⟩
  intro s d st en h
  constructor
  · intro hno
    simp only [ParseConfigValue, ParseConfigValueL,
      splitOnChar_of_not_mem '=' _ hno] at h
    repeat' split at h
    all_goals simp at h
    all_goals (obtain ⟨h1, h2, h3⟩ := h; omega)
  · intro hno
    simp only [ParseConfigValue, ParseConfigValueL,
      splitOnChar_of_not_mem ':' _ hno] at h
    repeat' split at h
    all_goals simp at h
    all_goals (obtain ⟨h1, h2, h3⟩ := h; omega)

/-- C5 witness: the general part applied at `"4"` (no `=`, no `:`),
together with the concrete triple evaluations. -/
theorem c5_spec_triple_witness :
    ParseConfigValue "4" = some (0, 4, 4) ∧ (0 : Int) = 0 ∧ (4 : Int) = 4 := by
  refine ⟨by decide, ?_, ?_⟩
  · exact (c5_spec_triple.2.2.2 "4" 0 4 4 (by decide)).1 (by decide)
  · exact (c5_spec_triple.2.2.2 "4" 0 4 4 (by decide)).2 (by decide)

/-! ### Claim C4 -/

theorem pyIntL_not_sign (b : Nat) (c : Char) (rest : List Char) (h1 : c ≠ '-') (h2 : c ≠ '+') :
    pyIntL b (c :: rest) = (digitsVal b (stripBase b (c :: rest))).map (fun n => Int.ofNat n) := by
  unfold pyIntL
  split
  · rename_i cs2 rest2 heq
    injection heq with hc _
    exact absurd hc h1
  · rename_i cs2 rest2 heq
    injection heq with hc _
    exact absurd hc h2
  · rfl

theorem strip0o_keep (rest : List Char) (h1 : rest.headD ' ' ≠ 'o') (h2 : rest.headD ' ' ≠ 'O') :
    strip0o ('0' :: rest) = '0' :: rest := by
  unfold strip0o
  split
  · rename_i r heq
    injection heq with _ htail
    rw [htail] at h1
    exact absurd rfl h1
  · rename_i r heq
    injection heq with _ htail
    rw [htail] at h2
    exact absurd rfl h2
  · rfl

theorem digit_lt_not_letter (c : Char) (b : Nat) (hb : b ≤ 10)
    (h : ∃ v, digChar? c = some v ∧ v < b) :
    c ≠ 'x' ∧ c ≠ 'X' ∧ c ≠ 'o' ∧ c ≠ 'O' ∧ c ≠ '-' ∧ c ≠ '+' := by
  obtain ⟨v, hv, hvb⟩ := h
  refine ⟨?_, ?_, ?_, ?_, ?_, ?_⟩ <;> intro hc <;> subst hc <;>
    simp [digChar?] at hv <;> omega

theorem Str2IntL_decimal (c : Char) (rest : List Char) (hc0 : c ≠ '0') :
    Str2IntL (c :: rest) = pyIntL 10 (c :: rest) := by
  have h1 : ¬(c :: rest = ([] : List Char)) := by simp
  have h2 : ¬((c :: rest).take 2 = ['0', 'x']) := by
    match rest with
    | [] =>
      intro hh
      have ht : ([c] : List Char).take 2 = [c] := rfl
      rw [ht] at hh
      injection hh with hc1 htl
      exact absurd (congrArg List.length htl) (by simp)
    | r0 :: r' =>
      intro hh
      have ht : (c :: r0 :: r').take 2 = [c, r0] := rfl
      rw [ht] at hh
      injection hh with hc1 _
      exact hc0 hc1
  have h3 : ¬((c :: rest).take 1 = ['0']) := by
    intro hh
    have ht : (c :: rest).take 1 = [c] := rfl
    rw [ht] at hh
    injection hh with hc1 _
    exact hc0 hc1
  unfold Str2IntL
  rw [if_neg h1, if_neg h2, if_neg h3]

theorem Str2IntL_octal (rest : List Char) (hx : rest.headD ' ' ≠ 'x') :
    Str2IntL ('0' :: rest) = pyIntL 8 ('0' :: rest) := by
  have h1 : ¬('0' :: rest = ([] : List Char)) := by simp
  have h2 : ¬(('0' :: rest).take 2 = ['0', 'x']) := by
    match rest, hx with
    | [], _ => decide
    | r0 :: r', hx =>
      intro hh
      have ht : ('0' :: r0 :: r').take 2 = ['0', r0] := rfl
      rw [ht] at hh
      injection hh with _ hh2
      injection hh2 with hr0 _
      exact hx hr0
  have h3 : ('0' :: rest).take 1 = ['0'] := rfl
  unfold Str2IntL
  rw [if_neg h1, if_neg h2, if_pos h3]

/-- C4: on every well-formed literal of the spec grammar (empty; `0x`
plus hexadecimal digits; `0` plus octal digits; optionally signed decimal
digits), `Str2Int` never fails and computes exactly the value the spec's
branch rule assigns. -/
theorem c4_literal_grammar (s : String) (h : (specLiteralValue s).isSome = true) :
    Str2Int s = specLiteralValue s ∧ (Str2Int s).isSome = true := by
  obtain ⟨v, hv⟩ := Option.isSome_iff_exists.mp h
  suffices hs : Str2Int s = some v by
    rw [hs, hv]
    exact ⟨rfl, rfl⟩
  show Str2IntL s.data = some v
  unfold specLiteralValue at hv
  split at hv
  · -- empty string
    rename_i heq
    rw [heq]
    exact hv
  · -- '0' :: 'x' :: rest
    rename_i rest heq
    rw [heq]
    split at hv
    · rename_i hcond
      obtain ⟨hne, hall⟩ := hcond
      have hred : Str2IntL ('0' :: 'x' :: rest) = pyIntL 16 ('0' :: 'x' :: rest) := rfl
      have hstrip : stripBase 16 ('0' :: 'x' :: rest) = rest := rfl
      rw [hred, pyIntL_not_sign 16 '0' _ (by decide) (by decide), hstrip,
        digitsVal_eq 16 rest hne hall, Option.map_some']
      exact hv
    · exact absurd hv (by simp)
  · -- '0' :: rest (octal)
    rename_i rest hnotx heq
    rw [heq]
    split at hv
    · rename_i hall
      have hall0 : ∀ c ∈ '0' :: rest, ∃ w, digChar? c = some w ∧ w < 8 := by
        intro c hc
        rcases List.mem_cons.mp hc with rfl | hc'
        · exact ⟨0, by decide, by decide⟩
        · exact hall c hc'
      have hhead : rest.headD ' ' ≠ 'o' ∧ rest.headD ' ' ≠ 'O' ∧ rest.headD ' ' ≠ 'x' := by
        match rest, hall with
        | [], _ => exact ⟨by decide, by decide, by decide⟩
        | r0 :: r', hall =>
          have hfacts := digit_lt_not_letter r0 8 (by omega) (hall r0 (List.mem_cons_self _ _))
          exact ⟨hfacts.2.2.1, hfacts.2.2.2.1, hfacts.1⟩
      have hstrip : stripBase 8 ('0' :: rest) = strip0o ('0' :: rest) := rfl
      rw [Str2IntL_octal rest hhead.2.2, pyIntL_not_sign 8 '0' _ (by decide) (by decide),
        hstrip, strip0o_keep rest hhead.1 hhead.2.1,
        digitsVal_eq 8 ('0' :: rest) (by simp) hall0, Option.map_some']
      exact hv
    · exact absurd hv (by simp)
  · -- '-' :: rest
    rename_i rest heq
    rw [heq]
    split at hv
    · rename_i hcond
      obtain ⟨hne, hall⟩ := hcond
      have hsign : pyIntL 10 ('-' :: rest) =
          (digitsVal 10 (stripBase 10 rest)).map (fun n => -Int.ofNat n) := rfl
      have hstrip : stripBase 10 rest = rest := rfl
      rw [Str2IntL_decimal '-' rest (by decide), hsign, hstrip,
        digitsVal_eq 10 rest hne hall, Option.map_some']
      exact hv
    · exact absurd hv (by simp)
  · -- '+' :: rest
    rename_i rest heq
    rw [heq]
    split at hv
    · rename_i hcond
      obtain ⟨hne, hall⟩ := hcond
      have hsign : pyIntL 10 ('+' :: rest) =
          (digitsVal 10 (stripBase 10 rest)).map (fun n => Int.ofNat n) := rfl
      have hstrip : stripBase 10 rest = rest := rfl
      rw [Str2IntL_decimal '+' rest (by decide), hsign, hstrip,
        digitsVal_eq 10 rest hne hall, Option.map_some']
      exact hv
    · exact absurd hv (by simp)
  · -- plain decimal
    rename_i hne0 hnot0x hnot0 hnotm hnotp
    split at hv
    · rename_i hall
      rcases hd : s.data with _ | ⟨c, rest⟩
      · exact absurd hd hne0
      · have hc0 : c ≠ '0' := fun hc => hnot0 rest (by rw [hd, hc])
        have hcm : c ≠ '-' := fun hc => hnotm rest (by rw [hd, hc])
        have hcp : c ≠ '+' := fun hc => hnotp rest (by rw [hd, hc])
        rw [hd] at hv hall
        rw [Str2IntL_decimal c rest hc0, pyIntL_not_sign 10 c rest hcm hcp]
        have hstrip : stripBase 10 (c :: rest) = c :: rest := rfl
        rw [hstrip, digitsVal_eq 10 (c :: rest) (by simp) hall, Option.map_some']
        exact hv
    · exact absurd hv (by simp)

/-- C4 witness: the grammar theorem applied at the literals `"0x1A"`,
`"067"`, `""` and `"-12"`. -/
theorem c4_literal_grammar_witness :
    (specLiteralValue "0x1A").isSome = true ∧ Str2Int "0x1A" = some 26 ∧
      Str2Int "067" = some 55 ∧ Str2Int "" = some 0 ∧ Str2Int "-12" = some (-12) := by
  refine ⟨by decide, ?_, ?_, ?_, ?_⟩
  · rw [(c4_literal_grammar "0x1A" (by decide)).1]
    decide
  · rw [(c4_literal_grammar "067" (by decide)).1]
    decide
  · rw [(c4_literal_grammar "" (by decide)).1]
    decide
  · rw [(c4_literal_grammar "-12" (by decide)).1]
    decide

/-! ### Claims C6 and C7 -/

theorem drop_take_eq_subBits (l : List Bool) (a b : Nat) (hb : b ≤ l.length) :
    (l.take b).drop a = subBitsHalfOpen l a b := by
  apply List.ext_getElem?
  intro n
  rcases lt_or_ge n (b - a) with hn | hn
  · have h1 : a + n < b := by omega
    have h2 : a + n < l.length := by omega
    rw [List.getElem?_drop, List.getElem?_take, if_pos h1, subBitsHalfOpen,
      List.getElem?_map, List.getElem?_range hn]
    rw [List.getElem?_eq_getElem h2, Option.map_some']
    rw [List.getD_eq_getElem l false h2]
  · rw [List.getElem?_drop, List.getElem?_take, if_neg (by omega)]
    rw [subBitsHalfOpen]
    symm
    apply List.getElem?_eq_none
    simp only [List.length_map, List.length_range]
    omega

/-- C6, counterexample to the claim as stated: over the buffer from
`"FF"` (8 one-bits) the field `start=0, end=4` decodes to `"0xF0"` —
bits 0..3, *exclusive* of `end` — while the spec's inclusive sub-range
`[0, 4]` would render as `"0xF8"`. -/
theorem c6_slice_exclusive :
    bitBufferFromHex "FF" = some (List.replicate 8 true) ∧
      parseFieldValue (List.replicate 8 true) 0 4 = some "0xF0" ∧
      specInclusiveRawValue (List.replicate 8 true) 0 4 = "0xF8" ∧
      parseFieldValue (List.replicate 8 true) 0 4 ≠
        some (specInclusiveRawValue (List.replicate 8 true) 0 4) :=
  ⟨by decide, by decide, by decide, by decide⟩

/-- C6 (amended): for every field decoded against a buffer that contains
its range, if `start = end` the rawValue is the single buffer bit
rendered `"0"`/`"1"`; otherwise it is the bits of the *half-open* range
`[start, end)` — bit `i` of the slice is buffer bit `start + i` —
right-padded with zero bits to a byte boundary, rendered as `"0x"` plus
uppercase hex. -/
theorem c6_decode_field (bits : List Bool) (st en : Nat)
    (hen : en < bits.length) (hst : st ≤ en) :
    (st = en → parseFieldValue bits st en =
      some (if bits.getD st false then "1" else "0")) ∧
    (st < en → parseFieldValue bits st en =
      some ("0x" ++ tobytesHexUpper (subBitsHalfOpen bits st en))) := by
  constructor
  · intro heq
    subst heq
    have hlt : st < bits.length := by omega
    rw [parseFieldValue, if_pos rfl, List.get?_eq_getElem?,
      List.getElem?_eq_getElem hlt, Option.map_some', List.getD_eq_getElem bits false hlt]
  · intro hlt
    rw [parseFieldValue, if_neg (by omega), drop_take_eq_subBits bits st en (by omega)]

/-- C6 witness: the amended statement at the buffer of `"A5"` with the
single-bit field `(0,0)` and the multi-bit field `(1,5)`. -/
theorem c6_decode_field_witness :
    bitBufferFromHex "A5" = some [true, false, true, false, false, true, false, true] ∧
      parseFieldValue [true, false, true, false, false, true, false, true] 0 0 = some "1" ∧
      parseFieldValue [true, false, true, false, false, true, false, true] 1 5 =
        some ("0x" ++ tobytesHexUpper
          (subBitsHalfOpen [true, false, true, false, false, true, false, true] 1 5)) := by
  refine ⟨by decide, ?_, ?_⟩
  · have h := (c6_decode_field [true, false, true, false, false, true, false, true] 0 0
      (by decide) (by decide)).1 rfl
    rw [h]
    decide
  · exact (c6_decode_field [true, false, true, false, false, true, false, true] 1 5
      (by decide) (by decide)).2 (by decide)

/-- C7, counterexample to the claim as stated: decoding the field
`start=0, end=100` against the 8-bit buffer of `"FF"` does not fail — the
Python slice silently clamps to the buffer and yields `"0xFF"`. -/
theorem c7_oob_clamped :
    parseFieldValue (List.replicate 8 true) 0 100 = some "0xFF" ∧
      parseFieldValue (List.replicate 8 true) 0 100 ≠ none :=
  ⟨by decide, by decide⟩

/-- C7 (amended): for every field whose end offset reaches past the
buffer: when `start = end` (single-bit decode, a direct index) the decode
fails with no value (`IndexError`); when `start < end` the slice is
silently clamped to the buffer and a value is produced — the rendering of
`bits.drop start`, everything from `start` on. -/
theorem c7_oob_behavior (bits : List Bool) (st en : Nat)
    (hen : bits.length ≤ en) (hst : st ≤ en) :
    (st = en → parseFieldValue bits st en = none) ∧
    (st < en → parseFieldValue bits st en =
      some ("0x" ++ tobytesHexUpper (bits.drop st))) := by
  constructor
  · intro heq
    subst heq
    rw [parseFieldValue, if_pos rfl, List.get?_eq_getElem?,
      List.getElem?_eq_none (by omega), Option.map_none']
  · intro hlt
    rw [parseFieldValue, if_neg (by omega), List.take_of_length_le hen]

/-- C7 witness: the amended statement over a 4-bit buffer with the
out-of-range single-bit field `(7,7)` and the clamped field `(1,9)`. -/
theorem c7_oob_behavior_witness :
    parseFieldValue [true, false, true, true] 7 7 = none ∧
      parseFieldValue [true, false, true, true] 1 9 =
        some ("0x" ++ tobytesHexUpper ([true, false, true, true].drop 1)) := by
  constructor
  · exact (c7_oob_behavior [true, false, true, true] 7 7 (by decide) (by decide)).1 rfl
  · exact (c7_oob_behavior [true, false, true, true] 1 9 (by decide) (by decide)).2 (by decide)

/-! ### Claims C8 and C9 -/

theorem setSeq_length : ∀ (vs l : List Char) (pos : Nat), (setSeq l pos vs).length = l.length := by
  intro vs
  induction vs with
  | nil => intro l pos; rfl
  | cons a as ih =>
    intro l pos
    show (setSeq (l.set pos a) (pos + 1) as).length = _
    rw [ih, List.length_set]

theorem setSeq_frame : ∀ (vs l : List Char) (pos i : Nat),
    (i < pos ∨ pos + vs.length ≤ i) → (setSeq l pos vs)[i]? = l[i]? := by
  intro vs
  induction vs with
  | nil => intro l pos i _; rfl
  | cons a as ih =>
    intro l pos i hi
    simp only [List.length_cons] at hi
    show (setSeq (l.set pos a) (pos + 1) as)[i]? = _
    rw [ih (l.set pos a) (pos + 1) i (by omega), List.getElem?_set_ne (by omega : pos ≠ i)]

theorem setSeq_content : ∀ (vs l : List Char) (pos : Nat), pos + vs.length ≤ l.length →
    ∀ j, j < vs.length → (setSeq l pos vs)[pos + j]? = vs[j]? := by
  intro vs
  induction vs with
  | nil => intro l pos _ j hj; simp at hj
  | cons a as ih =>
    intro l pos hlen j hj
    simp only [List.length_cons] at hlen hj
    show (setSeq (l.set pos a) (pos + 1) as)[pos + j]? = _
    match j with
    | 0 =>
      rw [setSeq_frame as (l.set pos a) (pos + 1) (pos + 0) (by omega)]
      rw [Nat.add_zero, List.getElem?_set_self (by omega), List.getElem?_cons_zero]
    | j + 1 =>
      have hidx : pos + (j + 1) = (pos + 1) + j := by omega
      rw [hidx, ih (l.set pos a) (pos + 1) (by rw [List.length_set]; omega) j (by omega),
        List.getElem?_cons_succ]

theorem emod_toNat_lt (v : Int) : (v % ((2 : Int) ^ 32)).toNat < 2 ^ 32 := by
  have h1 : 0 ≤ v % ((2 : Int) ^ 32) := Int.emod_nonneg v (by norm_num)
  have h2 : v % ((2 : Int) ^ 32) < (2 : Int) ^ 32 := Int.emod_lt_of_pos v (by norm_num)
  rw [Int.toNat_lt h1]
  exact_mod_cast h2

theorem pyHex8UpperChars_length (n : Nat) (hn : n < 2 ^ 32) :
    (pyHex8UpperChars n).length = 8 := by
  rw [pyHex8UpperChars_eq n hn]
  simp [digitsBE_length]

theorem updateHexStr_eq (dword : Nat) (value : Int) (text : String)
    (hlen : 8 * dword + 8 ≤ text.data.length) :
    updateHexStr dword value text =
      some ⟨setSeq text.data (8 * dword) (pyHex8UpperChars ((value % ((2 : Int) ^ 32)).toNat))⟩ := by
  have hpos : dword <<< 3 = 8 * dword := by
    rw [Nat.shiftLeft_eq]
    ring
  simp only [updateHexStr, hpos]
  rw [if_pos (by omega)]

/-- C8, counterexample to the claim as stated: `setReg32Value(2^32)`
does not mask — `f'{2**32:032b}'` has 33 characters, so the register gets
33 bits (a leading one and 32 zeros), not the 32 bits of `2^32 mod 2^32`. -/
theorem c8_setvalue_unmasked :
    setReg32Value ((2 : Int) ^ 32) = some (true :: List.replicate 32 false) ∧
      (true :: List.replicate 32 false).length ≠ 32 :=
  ⟨by decide, by decide⟩

/-- C8 (amended): `updateHexStr` masks every integer `v` to
`v mod 2^32` and overwrites exactly the word's 8 hex characters (32 bits)
with its fixed-width uppercase rendering; `setReg32Value` writes exactly
the 32 bits of `v` only for `0 ≤ v < 2^32` (for larger `v` it writes more
than 32 bits, unmasked — see the counterexample). -/
theorem c8_word_write_masked :
    (∀ (value : Int) (dword : Nat) (text : String), 8 * dword + 8 ≤ text.data.length →
      ∃ t', updateHexStr dword value text = some t' ∧
        (pyHex8UpperChars ((value % ((2 : Int) ^ 32)).toNat)).length = 8 ∧
        ∀ j, j < 8 → t'.data[8 * dword + j]? =
          ((digitsBE 16 8 ((value % ((2 : Int) ^ 32)).toNat)).map
            (fun d => Char.toUpper (digitChToLower d)))[j]?) ∧
    (∀ v : Int, 0 ≤ v → v < 2 ^ 32 →
      setReg32Value v = some (bitsBE 32 v.toNat) ∧ (bitsBE 32 v.toNat).length = 32) := by
  constructor
  · intro value dword text hlen
    refine ⟨_, updateHexStr_eq dword value text hlen,
      pyHex8UpperChars_length _ (emod_toNat_lt value), ?_⟩
    intro j hj
    show (setSeq text.data (8 * dword) (pyHex8UpperChars _))[8 * dword + j]? = _
    rw [setSeq_content _ _ _
      (by rw [pyHex8UpperChars_length _ (emod_toNat_lt value)]; omega) j
      (by rw [pyHex8UpperChars_length _ (emod_toNat_lt value)]; omega)]
    rw [pyHex8UpperChars_eq _ (emod_toNat_lt value)]
  · intro v h0 hv
    have hvnat : v.toNat < 2 ^ 32 := by
      rw [Int.toNat_lt h0]
      exact_mod_cast hv
    have hset := setReg32Value_natCast v.toNat
    rw [Int.toNat_of_nonneg h0] at hset
    rw [hset, reg32BitsOfNat_eq _ hvnat]
    exact ⟨rfl, bitsBE_length 32 _⟩

/-- C8 witness: the amended statement at `value = -1`, `dword = 1` over a
16-character text (the mask turns `-1` into `2^32 - 1`), and at
`setReg32Value 5`. -/
theorem c8_word_write_masked_witness :
    (∃ t', updateHexStr 1 (-1) "ABCDEF0123456789" = some t' ∧
        (pyHex8UpperChars (((-1 : Int) % ((2 : Int) ^ 32)).toNat)).length = 8 ∧
        ∀ j, j < 8 → t'.data[8 * 1 + j]? =
          ((digitsBE 16 8 (((-1 : Int) % ((2 : Int) ^ 32)).toNat)).map
            (fun d => Char.toUpper (digitChToLower d)))[j]?) ∧
      setReg32Value (5 : Int) = some (bitsBE 32 ((5 : Int)).toNat) ∧
      (bitsBE 32 ((5 : Int)).toNat).length = 32 :=
  ⟨c8_word_write_masked.1 (-1) 1 "ABCDEF0123456789" (by decide),
   c8_word_write_masked.2 5 (by decide) (by decide)⟩

/-- C9: a word value update for dword index `d` changes only the 8 hex
characters at positions `8*d .. 8*d+7` of the text; every other character
(and the total length) is unchanged. -/
theorem c9_update_frame (dword : Nat) (value : Int) (text : String)
    (hlen : 8 * dword + 8 ≤ text.data.length) :
    ∃ t', updateHexStr dword value text = some t' ∧
      t'.data.length = text.data.length ∧
      ∀ i, i < 8 * dword ∨ 8 * dword + 8 ≤ i → t'.data[i]? = text.data[i]? := by
  refine ⟨_, updateHexStr_eq dword value text hlen, setSeq_length _ _ _, ?_⟩
  intro i hi
  show (setSeq text.data (8 * dword) (pyHex8UpperChars _))[i]? = _
  apply setSeq_frame
  rw [pyHex8UpperChars_length _ (emod_toNat_lt value)]
  omega

/-- C9 witness: the frame property at `dword = 1` over a 24-character
text. -/
theorem c9_update_frame_witness :
    8 * 1 + 8 ≤ "ABCDEF0123456789AABBCCDD".data.length ∧
      ∃ t', updateHexStr 1 77 "ABCDEF0123456789AABBCCDD" = some t' ∧
        t'.data.length = "ABCDEF0123456789AABBCCDD".data.length ∧
        ∀ i, i < 8 * 1 ∨ 8 * 1 + 8 ≤ i →
          t'.data[i]? = "ABCDEF0123456789AABBCCDD".data[i]? :=
  ⟨by decide, c9_update_frame 1 77 "ABCDEF0123456789AABBCCDD" (by decide)⟩

/-! ### Claim C10 -/

theorem strip0x_keep (cs : List Char)
    (h : ∀ r, cs ≠ '0' :: 'x' :: r ∧ cs ≠ '0' :: 'X' :: r) :
    strip0x cs = cs := by
  unfold strip0x
  split
  · rename_i r
    exact absurd rfl (h r).1
  · rename_i r
    exact absurd rfl (h r).2
  · rfl

theorem pyIntL16_upper_digits (ds : List Nat) (hne : ds ≠ []) (hlt : ∀ d ∈ ds, d < 16) :
    pyIntL 16 (ds.map (fun d => Char.toUpper (digitChToLower d))) =
      some (Int.ofNat (valFoldNat 16 ds)) := by
  obtain ⟨d0, ds', rfl⟩ : ∃ d0 ds', ds = d0 :: ds' := by
    match ds, hne with
    | d0 :: ds', _ => exact ⟨d0, ds', rfl⟩
  have hd0 := d16_facts d0 (hlt d0 (List.mem_cons_self _ _))
  have hmap : (d0 :: ds').map (fun d => Char.toUpper (digitChToLower d)) =
      Char.toUpper (digitChToLower d0) ::
        ds'.map (fun d => Char.toUpper (digitChToLower d)) := rfl
  rw [hmap, pyIntL_not_sign 16 _ _ hd0.2.1 hd0.2.2.1]
  have hstrip : stripBase 16 (Char.toUpper (digitChToLower d0) ::
      ds'.map (fun d => Char.toUpper (digitChToLower d))) =
      Char.toUpper (digitChToLower d0) ::
        ds'.map (fun d => Char.toUpper (digitChToLower d)) := by
    show strip0x _ = _
    apply strip0x_keep
    intro r
    constructor
    · intro heq
      injection heq with h0 heq1
      match ds', heq1 with
      | d1 :: ds'', heq1 =>
        injection heq1 with h1 _
        exact (d16_facts d1 (hlt d1 (by simp))).2.2.2.1 h1
    · intro heq
      injection heq with h0 heq1
      match ds', heq1 with
      | d1 :: ds'', heq1 =>
        injection heq1 with h1 _
        exact (d16_facts d1 (hlt d1 (by simp))).2.2.2.2 h1
  rw [hstrip, ← hmap]
  have hall : ∀ c ∈ (d0 :: ds').map (fun d => Char.toUpper (digitChToLower d)),
      ∃ v, digChar? c = some v ∧ v < 16 := by
    intro c hc
    obtain ⟨d, hd, rfl⟩ := List.mem_map.mp hc
    exact ⟨d, (d16_facts d (hlt d hd)).1, hlt d hd⟩
  rw [digitsVal_eq 16 _ (by simp) hall, Option.map_some']
  congr 1
  rw [valFold_eq_valFoldNat, List.map_map]
  congr 1
  have : ∀ d ∈ d0 :: ds',
      (digCharVal ∘ fun d => Char.toUpper (digitChToLower d)) d = d := by
    intro d hd
    have := (d16_facts d (hlt d hd)).1
    simp [Function.comp, digCharVal, this]
  rw [List.map_congr_left this, List.map_id']

theorem getReg32Value_bitsBE (n : Nat) (hn : n < 2 ^ 32) :
    getReg32Value (bitsBE 32 n) = some (Int.ofNat n) := by
  show pyInt 16 (getReg32HexStr (bitsBE 32 n)) = _
  rw [getReg32HexStr_bitsBE n hn]
  show pyIntL 16 (pyHex8Upper n).data = _
  have hdata : (pyHex8Upper n).data = pyHex8UpperChars n := rfl
  rw [hdata, pyHex8UpperChars_eq n hn]
  have hne : digitsBE 16 8 n ≠ [] := by
    intro hnil
    have := digitsBE_length 16 8 n
    rw [hnil] at this
    simp at this
  rw [pyIntL16_upper_digits _ hne (digitsBE_mem_lt 16 8 (by omega) n)]
  congr 1
  have h16 : n < 16 ^ 8 := by
    calc n < 2 ^ 32 := hn
    _ = 16 ^ 8 := by norm_num
  rw [valFoldNat_digitsBE 16 8 (by omega) n h16]

/-- C10: for every value `v < 2^32`, `setReg32Value v` then
`getReg32Value` returns `v`, and the register holds exactly 32 bits
afterwards. -/
theorem c10_value_roundtrip (v : Nat) (hv : v < 2 ^ 32) :
    ∃ bits, setReg32Value (v : Int) = some bits ∧ bits.length = 32 ∧
      getReg32Value bits = some (v : Int) := by
  refine ⟨_, setReg32Value_natCast v, ?_, ?_⟩
  · show (reg32BitsOfNat v).length = 32
    rw [reg32BitsOfNat_eq v hv, bitsBE_length]
  · show getReg32Value (reg32BitsOfNat v) = _
    rw [reg32BitsOfNat_eq v hv, getReg32Value_bitsBE v hv]
    rfl

/-- C10 witness: the register value round trip at `v = 3735928559`
(`0xDEADBEEF`). -/
theorem c10_value_roundtrip_witness :
    3735928559 < 2 ^ 32 ∧
      ∃ bits, setReg32Value ((3735928559 : Nat) : Int) = some bits ∧ bits.length = 32 ∧
        getReg32Value bits = some ((3735928559 : Nat) : Int) :=
  ⟨by decide, c10_value_roundtrip 3735928559 (by decide)⟩
